/-
Verification of the libhaloc hashing engine and fingerprint store.

Shallow embedding of `src/hash.cc` and `src/haloc.cc`:
  * descriptor matrices (cv::Mat of floats) become `Mat`, a list of rows of
    rationals together with a column count;
  * float arithmetic is modelled exactly over `ℚ`, and the one square root
    (`std::sqrt` in `Hash::calcSimilarity`) over `ℝ` via `Real.sqrt`;
  * the random permutation drawn by `std::random_shuffle` in `Hash::calcHash`
    is passed in explicitly as the list `shuffle` of row indices;
  * the external SIFT descriptor extractor (`Haloc::calcDesc`) is passed in
    explicitly as a function `ext : Image → Mat`;
  * `std::map` becomes an association list sorted strictly by key.
-/
import Mathlib

namespace Haloc

/-- A dense float matrix (cv::Mat of CV_32F): a list of rows plus the column
count carried by the Mat header. -/
structure Mat where
  data : List (List ℚ)
  cols : ℕ
deriving DecidableEq

/-- Row count of a matrix (`desc.rows`). -/
def Mat.rows (m : Mat) : ℕ := m.data.length

/-- Entry access `m.at<float>(i, n)`; out-of-range reads give 0 (the embedding
never relies on them at in-range call sites). -/
def Mat.entry (m : Mat) (i n : ℕ) : ℚ := (m.data.getD i []).getD n 0

/-- Row subsampling step of `Hash::calcHash` (hash.cc lines 34-48): when the
row count exceeds the capacity `cap = r_[0].size()`, keep the rows indexed by
the first `rows - diff` entries of the shuffled index list, where
`diff = rows - cap`; otherwise the matrix is used as is. -/
def adjustDesc (cap : ℕ) (shuffle : List ℕ) (desc : Mat) : Mat :=
  if cap < desc.rows then
    { data := (shuffle.take (desc.rows - (desc.rows - cap))).map
        (fun idx => desc.data.getD idx []),
      cols := desc.cols }
  else desc

/-- Inner accumulation of `Hash::calcHash` (hash.cc lines 55-61) for one pair
`(i, n)`: sum over rows `m` with `m < adjusted.rows` and `m < max_desc_` of
`(r_[i][m] * adjusted(m, n) + 1) / 2`, divided by `descLength`. -/
def projScalar (r : List (List ℚ)) (maxDesc : ℕ) (adj : Mat) (descLength : ℚ)
    (i n : ℕ) : ℚ :=
  ((List.range (min adj.rows maxDesc)).foldl
      (fun s m => s + ((r.getD i []).getD m 0 * adj.entry m n + 1) / 2) 0)
    / descLength

/-- The projection loop of `Hash::calcHash` (hash.cc lines 52-63): the output
vector is allocated with `r_.size() * adjusted.cols` zeros and the scalar for
`(i, n)` is written at index `i * n` (the literal index expression of line 61). -/
def hashWrites (numProj cols : ℕ) (val : ℕ → ℕ → ℚ) : List ℚ :=
  (List.range numProj).foldl
    (fun h i => (List.range cols).foldl
      (fun h2 n => h2.set (i * n) (val i n)) h)
    (List.replicate (numProj * cols) 0)

/-- `Hash::calcHash` (hash.cc lines 22-66). The basis `r` is the state field
`r_` (already initialized); `maxDesc` is `max_desc_`; `shuffle` stands for the
shuffled index vector of `std::random_shuffle`. An empty descriptor matrix
yields the empty hash. `descLength` is `adjusted_desc.rows` cast to float. -/
def calcHash (r : List (List ℚ)) (maxDesc : ℕ) (shuffle : List ℕ) (desc : Mat) :
    List ℚ :=
  if desc.rows = 0 then []
  else
    hashWrites r.length (adjustDesc (r.getD 0 []).length shuffle desc).cols
      (projScalar r maxDesc (adjustDesc (r.getD 0 []).length shuffle desc)
        ((adjustDesc (r.getD 0 []).length shuffle desc).rows : ℚ))

/-- Accumulation loop of `Hash::calcSimilarity` (hash.cc lines 76-80): sum of
squared per-position differences, indexed over `hash_a`. -/
def sumSqDiff (a b : List ℚ) : ℚ :=
  (List.range a.length).foldl (fun s i => s + (a.getD i 0 - b.getD i 0) ^ 2) 0

/-- `Hash::calcSimilarity` (hash.cc lines 68-83): `-1` on a length mismatch,
otherwise the square root of the summed squared differences. -/
noncomputable def calcSimilarity (a b : List ℚ) : ℝ :=
  if a.length ≠ b.length then -1
  else Real.sqrt ((sumSqDiff a b : ℚ) : ℝ)

/-- An input image; only its emptiness (`image.empty()`) and its descriptor
matrix (through the external extractor) matter to `Haloc::process`. -/
abbrev Image := List (List ℚ)

/-- Insertion `hashes_table_[image_id] = hash` into a `std::map` kept as an
association list strictly sorted by key: overwrite the entry whose key matches,
otherwise insert at the unique sorted position. -/
def upsert (l : List (ℕ × List ℚ)) (k : ℕ) (v : List ℚ) : List (ℕ × List ℚ) :=
  match l with
  | [] => [(k, v)]
  | p :: rest =>
    if k < p.1 then (k, v) :: p :: rest
    else if k = p.1 then (k, v) :: rest
    else p :: upsert rest k v

/-- The `std::map` invariant for our association lists: keys strictly
increasing along the list. -/
def SortedKeys (l : List (ℕ × List ℚ)) : Prop :=
  l.Pairwise (fun p q => p.1 < q.1)

/-- `Haloc::calcSimilarities` (haloc.cc lines 63-82): walk the stored table in
key order, skip ignored ids, compute the similarity with the new hash, and
keep an entry only when the similarity is not `≤ 0`. -/
noncomputable def calcSimilarities (hash : List ℚ) (ignore : List ℕ) :
    List (ℕ × List ℚ) → List (ℕ × ℝ)
  | [] => []
  | (id, h) :: rest =>
    if id ∈ ignore then calcSimilarities hash ignore rest
    else if calcSimilarity hash h ≤ 0 then calcSimilarities hash ignore rest
    else (id, calcSimilarity hash h) :: calcSimilarities hash ignore rest

/-- `std::min_element` over the similarity map (haloc.cc lines 91-94) with the
comparator `p1.second < p2.second`: the first entry with the smallest value. -/
noncomputable def minElement : List (ℕ × ℝ) → Option (ℕ × ℝ)
  | [] => none
  | p :: rest => some (rest.foldl (fun best q => if q.2 < best.2 then q else best) p)

/-- `similarities.erase(min_sim)` (haloc.cc line 100): remove the first entry
carrying the given key. -/
def eraseKey (k : ℕ) : List (ℕ × ℝ) → List (ℕ × ℝ)
  | [] => []
  | p :: rest => if p.1 = k then rest else p :: eraseKey k rest

/-- The loop of `Haloc::getBestCandidates` (haloc.cc lines 89-101), with an
explicit fuel argument bounding the number of iterations (each iteration
removes one map entry, so `similarities.length` fuel suffices): while fewer
than `target` ids are chosen and the map is non-empty, move the minimum entry
into the output. -/
noncomputable def gbcAux : ℕ → List (ℕ × ℝ) → ℕ → List ℕ
  | 0, _, _ => []
  | fuel + 1, sims, target =>
    if target = 0 then []
    else
      match minElement sims with
      | none => []
      | some p => p.1 :: gbcAux fuel (eraseKey p.1 sims) (target - 1)

/-- The value of `num_candidates` (a C++ `int`) after the usual arithmetic
conversion to `size_t` performed by the comparison
`candidates.size() < num_candidates` (haloc.cc line 89). -/
def sizeTNat (n : ℤ) : ℕ := (n % (2 : ℤ) ^ 64).toNat

/-- `Haloc::getBestCandidates` (haloc.cc lines 84-104). -/
noncomputable def getBestCandidates (sims : List (ℕ × ℝ)) (numCandidates : ℤ) :
    List ℕ :=
  gbcAux sims.length sims (sizeTNat numCandidates)

/-- State of a `Haloc` instance: the basis `r_` and capacity `max_desc_` of
the owned `Hash` object, and the table `hashes_table_`. -/
structure HalocState where
  r : List (List ℚ)
  maxDesc : ℕ
  table : List (ℕ × List ℚ)
deriving DecidableEq

/-- The tail of `Haloc::process` (haloc.cc lines 33-53) after the hash has
been computed: reject an empty hash, otherwise store it, rank the remaining
images, and return the candidate list unless it is empty. The store update
happens before the candidate computation, in both result branches. -/
noncomputable def processWithHash (st : HalocState) (imageId : ℕ)
    (hash : List ℚ) (numCandidates : ℤ) (ignore : List ℕ) :
    Option (List ℕ) × HalocState :=
  if hash = [] then (none, st)
  else if getBestCandidates
      (calcSimilarities hash ignore (upsert st.table imageId hash))
      numCandidates = [] then
    (none, ⟨st.r, st.maxDesc, upsert st.table imageId hash⟩)
  else
    (some (getBestCandidates
        (calcSimilarities hash ignore (upsert st.table imageId hash))
        numCandidates),
     ⟨st.r, st.maxDesc, upsert st.table imageId hash⟩)

/-- `Haloc::process` (haloc.cc lines 18-54). The external SIFT extractor
(`Haloc::calcDesc`) is the explicit parameter `ext`, and the permutation drawn
inside `Hash::calcHash` is the explicit parameter `shuffle`. An empty image is
rejected before any store access. -/
noncomputable def process (ext : Image → Mat) (shuffle : List ℕ)
    (st : HalocState) (imageId : ℕ) (image : Image) (numCandidates : ℤ)
    (ignore : List ℕ) : Option (List ℕ) × HalocState :=
  if image = [] then (none, st)
  else processWithHash st imageId (calcHash st.r st.maxDesc shuffle (ext image))
    numCandidates ignore

/-- The similarity map built by one `process` call against the freshly updated
table: exactly the eligible entries (ids not ignored whose similarity with the
new hash is positive). -/
noncomputable def eligibleSims (ext : Image → Mat) (shuffle : List ℕ)
    (st : HalocState) (imageId : ℕ) (img : Image) (ignore : List ℕ) :
    List (ℕ × ℝ) :=
  calcSimilarities (calcHash st.r st.maxDesc shuffle (ext img)) ignore
    (upsert st.table imageId (calcHash st.r st.maxDesc shuffle (ext img)))

/-- First value stored under a key in a similarity map, with a default. -/
def lookupD (k : ℕ) (l : List (ℕ × ℝ)) (d : ℝ) : ℝ :=
  match l with
  | [] => d
  | p :: rest => if p.1 = k then p.2 else lookupD k rest d

/-! ### A concrete engine run used by witnesses and counterexamples

A basis of one projection vector `[1, 0]` with capacity `max_desc = 2`, a
store already holding hashes for ids 1, 2 and 3, and a new image (id 4) whose
extracted descriptor matrix is the single row `[1]` - the exact matrix whose
hash is the one stored for id 2. -/

/-- Concrete basis: one projection vector of length 2. -/
def r0 : List (List ℚ) := [[1, 0]]

/-- Concrete store state: hashes `[0]`, `[1]`, `[5]` for ids 1, 2, 3. -/
def st0 : HalocState := ⟨r0, 2, [(1, [0]), (2, [1]), (3, [5])]⟩

/-- Concrete non-empty image. -/
def img0 : Image := [[1]]

/-- Concrete extractor returning the 1 x 1 descriptor matrix `[[1]]`. -/
def ext0 : Image → Mat := fun _ => ⟨[[1]], 1⟩

theorem hash0 : calcHash st0.r st0.maxDesc [] (ext0 img0) = [1] := by
  norm_num [calcHash, hashWrites, projScalar, adjustDesc, Mat.rows, Mat.entry,
    List.range_succ, List.replicate, List.set, st0, r0, ext0, img0]

theorem sim10 : calcSimilarity [1] [0] = 1 := by
  rw [calcSimilarity, if_neg (by norm_num)]
  norm_num [sumSqDiff, List.range_succ]

theorem sim11 : calcSimilarity [1] [1] = 0 := by
  rw [calcSimilarity, if_neg (by norm_num)]
  norm_num [sumSqDiff, List.range_succ]

theorem sim15 : calcSimilarity [1] [5] = 4 := by
  rw [calcSimilarity, if_neg (by norm_num)]
  norm_num [sumSqDiff, List.range_succ]
  rw [show (16 : ℝ) = 4 ^ 2 by norm_num, Real.sqrt_sq (by norm_num)]

theorem sims0 : calcSimilarities [1] [] [(1, [0]), (2, [1]), (3, [5]), (4, [1])]
    = [(1, 1), (3, 4)] := by
  norm_num [calcSimilarities, sim10, sim11, sim15]

theorem run1 : process ext0 [] st0 4 img0 1 []
    = (some [1], ⟨r0, 2, [(1, [0]), (2, [1]), (3, [5]), (4, [1])]⟩) := by
  rw [process, if_neg (by norm_num [img0]), hash0, processWithHash,
    if_neg (by norm_num),
    show upsert st0.table 4 [1] = [(1, [0]), (2, [1]), (3, [5]), (4, [1])] by
      norm_num [st0, upsert],
    sims0,
    show getBestCandidates [(1, 1), (3, 4)] 1 = [1] by
      norm_num [getBestCandidates, gbcAux, minElement, eraseKey, sizeTNat]]
  norm_num [st0, r0]

theorem runNeg : process ext0 [] st0 4 img0 (-1) []
    = (some [1, 3], ⟨r0, 2, [(1, [0]), (2, [1]), (3, [5]), (4, [1])]⟩) := by
  rw [process, if_neg (by norm_num [img0]), hash0, processWithHash,
    if_neg (by norm_num),
    show upsert st0.table 4 [1] = [(1, [0]), (2, [1]), (3, [5]), (4, [1])] by
      norm_num [st0, upsert],
    sims0,
    show getBestCandidates [(1, 1), (3, 4)] (-1) = [1, 3] by
      norm_num [getBestCandidates, gbcAux, minElement, eraseKey, sizeTNat]
      decide,
    if_neg (show ¬([1, 3] : List ℕ) = [] by simp)]
  norm_num [st0, r0]

theorem sims0E : eligibleSims ext0 [] st0 4 img0 [] = [(1, 1), (3, 4)] := by
  rw [eligibleSims, hash0,
    show upsert st0.table 4 [1] = [(1, [0]), (2, [1]), (3, [5]), (4, [1])] by
      norm_num [st0, upsert],
    sims0]

/-! ### General lemmas about the embedded operations -/

theorem foldl_length_preserved {β : Type} (f : List ℚ → β → List ℚ)
    (hf : ∀ acc x, (f acc x).length = acc.length) :
    ∀ (l : List β) (init : List ℚ), (l.foldl f init).length = init.length := by
  intro l
  induction l with
  | nil => intro init; rfl
  | cons x xs ih => intro init; rw [List.foldl_cons, ih, hf]

theorem length_hashWrites (numProj cols : ℕ) (val : ℕ → ℕ → ℚ) :
    (hashWrites numProj cols val).length = numProj * cols := by
  rw [hashWrites, foldl_length_preserved, List.length_replicate]
  intro acc i
  rw [foldl_length_preserved]
  intro acc2 n
  exact List.length_set acc2 (i * n) (val i n)

theorem adjustDesc_cols (cap : ℕ) (shuffle : List ℕ) (desc : Mat) :
    (adjustDesc cap shuffle desc).cols = desc.cols := by
  rw [adjustDesc]
  split <;> rfl

theorem adjustDesc_rows_of_lt (cap : ℕ) (shuffle : List ℕ) (desc : Mat)
    (hcap : cap < desc.rows) (hsh : cap ≤ shuffle.length) :
    (adjustDesc cap shuffle desc).rows = cap := by
  rw [adjustDesc, if_pos hcap]
  rw [Mat.rows] at hcap
  simp only [Mat.rows, List.length_map, List.length_take]
  omega

theorem foldl_add_range (f : ℕ → ℚ) :
    ∀ (n : ℕ) (c : ℚ), (List.range n).foldl (fun s i => s + f i) c
      = c + ∑ i ∈ Finset.range n, f i := by
  intro n
  induction n with
  | zero => intro c; simp
  | succ n ih =>
    intro c
    rw [List.range_succ, List.foldl_append, ih, List.foldl_cons, List.foldl_nil,
      Finset.sum_range_succ, add_assoc]

theorem sumSqDiff_eq_sum (a b : List ℚ) :
    sumSqDiff a b = ∑ i ∈ Finset.range a.length, (a.getD i 0 - b.getD i 0) ^ 2 := by
  rw [sumSqDiff, foldl_add_range, zero_add]

theorem sumSqDiff_nonneg (a b : List ℚ) : 0 ≤ sumSqDiff a b := by
  rw [sumSqDiff_eq_sum]
  exact Finset.sum_nonneg fun i _ => sq_nonneg _

theorem sumSqDiff_self (a : List ℚ) : sumSqDiff a a = 0 := by
  rw [sumSqDiff_eq_sum]
  simp

theorem calcSimilarity_self (h : List ℚ) : calcSimilarity h h = 0 := by
  rw [calcSimilarity, if_neg (by simp), sumSqDiff_self]
  simp

theorem mem_upsert (l : List (ℕ × List ℚ)) (k : ℕ) (v : List ℚ) (q : ℕ × List ℚ)
    (h : q ∈ upsert l k v) : q = (k, v) ∨ q ∈ l := by
  induction l with
  | nil => simpa [upsert] using h
  | cons p rest ih =>
    rw [upsert] at h
    split_ifs at h with h1 h2
    · rcases List.mem_cons.mp h with h | h
      · exact Or.inl h
      · exact Or.inr h
    · rcases List.mem_cons.mp h with h | h
      · exact Or.inl h
      · exact Or.inr (List.mem_cons_of_mem p h)
    · rcases List.mem_cons.mp h with h | h
      · exact Or.inr (h ▸ List.mem_cons_self p rest)
      · rcases ih h with h | h
        · exact Or.inl h
        · exact Or.inr (List.mem_cons_of_mem p h)

theorem upsert_sortedKeys (l : List (ℕ × List ℚ)) (k : ℕ) (v : List ℚ)
    (hs : SortedKeys l) : SortedKeys (upsert l k v) := by
  induction l with
  | nil => simp [upsert, SortedKeys]
  | cons p rest ih =>
    rw [SortedKeys, List.pairwise_cons] at hs
    obtain ⟨hp, hrest⟩ := hs
    rw [upsert]
    split_ifs with h1 h2
    · rw [SortedKeys, List.pairwise_cons]
      refine ⟨?_, List.Pairwise.cons hp hrest⟩
      intro q hq
      rcases List.mem_cons.mp hq with hq | hq
      · exact hq ▸ h1
      · exact lt_trans h1 (hp q hq)
    · rw [SortedKeys, List.pairwise_cons]
      exact ⟨fun q hq => h2 ▸ hp q hq, hrest⟩
    · rw [SortedKeys, List.pairwise_cons]
      refine ⟨?_, ih hrest⟩
      intro q hq
      rcases mem_upsert rest k v q hq with hq | hq
      · rw [hq]
        omega
      · exact hp q hq

theorem mem_upsert_self_eq (l : List (ℕ × List ℚ)) (k : ℕ) (v w : List ℚ)
    (hs : SortedKeys l) (h : (k, w) ∈ upsert l k v) : w = v := by
  induction l with
  | nil =>
    simp only [upsert, List.mem_singleton, Prod.mk.injEq, true_and] at h
    exact h
  | cons p rest ih =>
    rw [SortedKeys, List.pairwise_cons] at hs
    obtain ⟨hp, hrest⟩ := hs
    rw [upsert] at h
    split_ifs at h with h1 h2
    · rcases List.mem_cons.mp h with h | h
      · exact ((Prod.mk.injEq _ _ _ _).mp h).2
      · rcases List.mem_cons.mp h with h | h
        · have hk : k = p.1 := congrArg Prod.fst h
          exact absurd hk (by omega)
        · have hk : p.1 < k := hp (k, w) h
          exact absurd hk (by omega)
    · rcases List.mem_cons.mp h with h | h
      · exact ((Prod.mk.injEq _ _ _ _).mp h).2
      · have hk : p.1 < k := hp (k, w) h
        exact absurd hk (by omega)
    · rcases List.mem_cons.mp h with h | h
      · have hk : k = p.1 := congrArg Prod.fst h
        exact absurd hk (by omega)
      · exact ih hrest h

theorem upsert_upsert_length (l : List (ℕ × List ℚ)) (k : ℕ) (v1 v2 : List ℚ) :
    (upsert (upsert l k v1) k v2).length = (upsert l k v1).length := by
  induction l with
  | nil => simp [upsert]
  | cons p rest ih =>
    rcases lt_trichotomy k p.1 with h | h | h
    · rw [upsert, if_pos h, upsert, if_neg (lt_irrefl k), if_pos rfl]
      simp
    · rw [upsert, if_neg (by omega), if_pos h, upsert, if_neg (lt_irrefl k),
        if_pos rfl]
      simp
    · rw [upsert, if_neg (by omega), if_neg (by omega), upsert,
        if_neg (by omega), if_neg (by omega), List.length_cons,
        List.length_cons, ih]

theorem processWithHash_snd (st : HalocState) (imageId : ℕ) (hash : List ℚ)
    (nc : ℤ) (ignore : List ℕ) (h : hash ≠ []) :
    (processWithHash st imageId hash nc ignore).2
      = ⟨st.r, st.maxDesc, upsert st.table imageId hash⟩ := by
  rw [processWithHash, if_neg h]
  split <;> rfl

theorem calcSimilarities_cons (hash : List ℚ) (ignore : List ℕ) (id : ℕ)
    (w : List ℚ) (rest : List (ℕ × List ℚ)) :
    calcSimilarities hash ignore ((id, w) :: rest)
      = if id ∈ ignore then calcSimilarities hash ignore rest
        else if calcSimilarity hash w ≤ 0 then calcSimilarities hash ignore rest
        else (id, calcSimilarity hash w) :: calcSimilarities hash ignore rest :=
  rfl

theorem mem_calcSimilarities (hash : List ℚ) (ignore : List ℕ)
    (l : List (ℕ × List ℚ)) (q : ℕ × ℝ) (h : q ∈ calcSimilarities hash ignore l) :
    ∃ w, (q.1, w) ∈ l ∧ q.2 = calcSimilarity hash w
      ∧ ¬ calcSimilarity hash w ≤ 0 ∧ q.1 ∉ ignore := by
  induction l with
  | nil => simp [calcSimilarities] at h
  | cons p rest ih =>
    obtain ⟨id, w⟩ := p
    rw [calcSimilarities_cons] at h
    split_ifs at h with h1 h2
    · obtain ⟨w2, hw2⟩ := ih h
      exact ⟨w2, List.mem_cons_of_mem _ hw2.1, hw2.2⟩
    · obtain ⟨w2, hw2⟩ := ih h
      exact ⟨w2, List.mem_cons_of_mem _ hw2.1, hw2.2⟩
    · rcases List.mem_cons.mp h with h | h
      · subst h
        exact ⟨w, List.mem_cons_self _ _, rfl, h2, h1⟩
      · obtain ⟨w2, hw2⟩ := ih h
        exact ⟨w2, List.mem_cons_of_mem _ hw2.1, hw2.2⟩

theorem calcSimilarities_keys_sublist (hash : List ℚ) (ignore : List ℕ)
    (l : List (ℕ × List ℚ)) :
    List.Sublist ((calcSimilarities hash ignore l).map Prod.fst) (l.map Prod.fst) := by
  induction l with
  | nil => simp [calcSimilarities]
  | cons p rest ih =>
    obtain ⟨id, w⟩ := p
    rw [calcSimilarities_cons]
    split_ifs with h1 h2
    · exact ih.trans (List.sublist_cons_self _ _)
    · exact ih.trans (List.sublist_cons_self _ _)
    · simp only [List.map_cons]
      exact ih.cons₂ id

theorem sortedKeys_keys_nodup (l : List (ℕ × List ℚ)) (hs : SortedKeys l) :
    (l.map Prod.fst).Nodup := by
  rw [SortedKeys] at hs
  exact (List.pairwise_map.mpr hs).imp Nat.ne_of_lt

/-! ### Lemmas about the greedy candidate selection -/

theorem foldl_min_mem (l : List (ℕ × ℝ)) :
    ∀ p : ℕ × ℝ,
      l.foldl (fun best q => if q.2 < best.2 then q else best) p ∈ p :: l := by
  induction l with
  | nil => intro p; simp
  | cons q rest ih =>
    intro p
    rw [List.foldl_cons]
    rcases List.mem_cons.mp (ih (if q.2 < p.2 then q else p)) with h | h
    · rw [h]
      split_ifs
      · exact List.mem_cons_of_mem _ (List.mem_cons_self _ _)
      · exact List.mem_cons_self _ _
    · exact List.mem_cons_of_mem _ (List.mem_cons_of_mem _ h)

theorem foldl_min_le (l : List (ℕ × ℝ)) :
    ∀ p : ℕ × ℝ,
      (l.foldl (fun best q => if q.2 < best.2 then q else best) p).2 ≤ p.2
      ∧ ∀ q ∈ l,
          (l.foldl (fun best q => if q.2 < best.2 then q else best) p).2 ≤ q.2 := by
  induction l with
  | nil => intro p; simp
  | cons q rest ih =>
    intro p
    rw [List.foldl_cons]
    obtain ⟨ih1, ih2⟩ := ih (if q.2 < p.2 then q else p)
    have hstep : (if q.2 < p.2 then q else p).2 ≤ p.2 ∧
        (if q.2 < p.2 then q else p).2 ≤ q.2 := by
      split_ifs with hlt
      · exact ⟨le_of_lt hlt, le_refl _⟩
      · exact ⟨le_refl _, le_of_not_lt hlt⟩
    refine ⟨le_trans ih1 hstep.1, ?_⟩
    intro x hx
    rcases List.mem_cons.mp hx with hx | hx
    · rw [hx]
      exact le_trans ih1 hstep.2
    · exact ih2 x hx

theorem minElement_spec (l : List (ℕ × ℝ)) (p : ℕ × ℝ)
    (h : minElement l = some p) : p ∈ l ∧ ∀ q ∈ l, p.2 ≤ q.2 := by
  cases l with
  | nil => simp [minElement] at h
  | cons a rest =>
    rw [minElement, Option.some.injEq] at h
    subst h
    obtain ⟨h1, h2⟩ := foldl_min_le rest a
    refine ⟨foldl_min_mem rest a, ?_⟩
    intro q hq
    rcases List.mem_cons.mp hq with hq | hq
    · exact hq ▸ h1
    · exact h2 q hq

theorem minElement_eq_none (l : List (ℕ × ℝ)) : minElement l = none ↔ l = [] := by
  cases l <;> simp [minElement]

theorem eraseKey_sublist (k : ℕ) (l : List (ℕ × ℝ)) :
    List.Sublist (eraseKey k l) l := by
  induction l with
  | nil => simp [eraseKey]
  | cons p rest ih =>
    rw [eraseKey]
    split_ifs
    · exact List.sublist_cons_self p rest
    · exact ih.cons₂ p

theorem length_eraseKey_of_mem (k : ℕ) (l : List (ℕ × ℝ))
    (h : k ∈ l.map Prod.fst) : (eraseKey k l).length + 1 = l.length := by
  induction l with
  | nil => simp at h
  | cons p rest ih =>
    rw [eraseKey]
    split_ifs with hp
    · simp
    · have hk : k ∈ rest.map Prod.fst := by
        rcases List.mem_cons.mp h with h | h
        · exact absurd h.symm hp
        · exact h
      rw [List.length_cons, List.length_cons, ← ih hk]

theorem lookupD_eraseKey_ne (k x : ℕ) (hxk : x ≠ k) (l : List (ℕ × ℝ)) (d : ℝ) :
    lookupD x (eraseKey k l) d = lookupD x l d := by
  induction l with
  | nil => rfl
  | cons p rest ih =>
    rw [eraseKey]
    split_ifs with hp
    · rw [lookupD, if_neg (by rw [hp]; exact fun hh => hxk hh.symm)]
    · rw [lookupD, lookupD]
      split_ifs
      · rfl
      · exact ih

theorem not_mem_keys_eraseKey (k : ℕ) (l : List (ℕ × ℝ))
    (hnd : (l.map Prod.fst).Nodup) : k ∉ (eraseKey k l).map Prod.fst := by
  induction l with
  | nil => simp [eraseKey]
  | cons p rest ih =>
    simp only [List.map_cons, List.nodup_cons] at hnd
    rw [eraseKey]
    split_ifs with hp
    · exact hp ▸ hnd.1
    · simp only [List.map_cons, List.mem_cons]
      rintro (h | h)
      · exact hp h.symm
      · exact ih hnd.2 h

theorem lookupD_eq_of_mem (l : List (ℕ × ℝ)) (p : ℕ × ℝ)
    (hnd : (l.map Prod.fst).Nodup) (h : p ∈ l) (d : ℝ) :
    lookupD p.1 l d = p.2 := by
  induction l with
  | nil => simp at h
  | cons q rest ih =>
    simp only [List.map_cons, List.nodup_cons] at hnd
    rw [lookupD]
    rcases List.mem_cons.mp h with h | h
    · rw [if_pos (congrArg Prod.fst h.symm)]
      exact (h ▸ rfl : q.2 = p.2)
    · rw [if_neg ?_]
      · exact ih hnd.2 h
      · intro he
        exact hnd.1 (he ▸ List.mem_map_of_mem Prod.fst h)

theorem gbcAux_spec :
    ∀ (fuel : ℕ) (sims : List (ℕ × ℝ)) (target : ℕ),
      (sims.map Prod.fst).Nodup → sims.length ≤ fuel →
      (gbcAux fuel sims target).length = min target sims.length
      ∧ (∀ x ∈ gbcAux fuel sims target, x ∈ sims.map Prod.fst)
      ∧ (gbcAux fuel sims target).Pairwise
          (fun a b => lookupD a sims 0 ≤ lookupD b sims 0) := by
  intro fuel
  induction fuel with
  | zero =>
    intro sims target hnd hlen
    have hsims : sims = [] := List.length_eq_zero.mp (Nat.le_zero.mp hlen)
    subst hsims
    simp [gbcAux]
  | succ fuel ih =>
    intro sims target hnd hlen
    rw [gbcAux]
    by_cases ht : target = 0
    · rw [if_pos ht, ht]
      simp
    · rw [if_neg ht]
      cases hm : minElement sims with
      | none =>
        have hsims : sims = [] := (minElement_eq_none sims).mp hm
        subst hsims
        simp
      | some p =>
        obtain ⟨hpmem, hple⟩ := minElement_spec sims p hm
        have hkey : p.1 ∈ sims.map Prod.fst := List.mem_map_of_mem Prod.fst hpmem
        have hlen2 : (eraseKey p.1 sims).length + 1 = sims.length :=
          length_eraseKey_of_mem p.1 sims hkey
        have hsub : List.Sublist ((eraseKey p.1 sims).map Prod.fst)
            (sims.map Prod.fst) := (eraseKey_sublist p.1 sims).map Prod.fst
        have hnd2 : ((eraseKey p.1 sims).map Prod.fst).Nodup := hnd.sublist hsub
        obtain ⟨ihlen, ihmem, ihpair⟩ :=
          ih (eraseKey p.1 sims) (target - 1) hnd2 (by omega)
        have hmemkeys : ∀ x ∈ gbcAux fuel (eraseKey p.1 sims) (target - 1),
            x ∈ sims.map Prod.fst := fun x hx => hsub.mem (ihmem x hx)
        have hnotp : ∀ x ∈ gbcAux fuel (eraseKey p.1 sims) (target - 1),
            x ≠ p.1 := by
          intro x hx he
          exact not_mem_keys_eraseKey p.1 sims hnd (he ▸ ihmem x hx)
        refine ⟨?_, ?_, ?_⟩
        · rw [List.length_cons, ihlen]
          omega
        · intro x hx
          rcases List.mem_cons.mp hx with hx | hx
          · exact hx ▸ hkey
          · exact hmemkeys x hx
        · rw [List.pairwise_cons]
          constructor
          · intro b hb
            have hbne : b ≠ p.1 := hnotp b hb
            obtain ⟨q, hq, hqb⟩ := List.exists_of_mem_map (ihmem b hb)
            have hqsims : q ∈ sims := (eraseKey_sublist p.1 sims).mem hq
            rw [lookupD_eq_of_mem sims p hnd hpmem, ← hqb,
              lookupD_eq_of_mem sims q hnd hqsims]
            exact hple q hqsims
          · refine List.Pairwise.imp_of_mem ?_ ihpair
            intro a b ha hb hab
            rwa [lookupD_eraseKey_ne p.1 a (hnotp a ha),
              lookupD_eraseKey_ne p.1 b (hnotp b hb)] at hab

theorem process_some_eq (ext : Image → Mat) (shuffle : List ℕ) (st : HalocState)
    (imageId : ℕ) (img : Image) (nc : ℤ) (ignore : List ℕ) (cands : List ℕ)
    (h : (process ext shuffle st imageId img nc ignore).1 = some cands) :
    cands = getBestCandidates (eligibleSims ext shuffle st imageId img ignore) nc
    ∧ img ≠ [] ∧ calcHash st.r st.maxDesc shuffle (ext img) ≠ [] ∧ cands ≠ [] := by
  rw [process] at h
  by_cases h1 : img = []
  · rw [if_pos h1] at h
    exact absurd h (by simp)
  · rw [if_neg h1, processWithHash] at h
    by_cases h2 : calcHash st.r st.maxDesc shuffle (ext img) = []
    · rw [if_pos h2] at h
      exact absurd h (by simp)
    · rw [if_neg h2] at h
      rw [eligibleSims]
      by_cases h3 : getBestCandidates
          (calcSimilarities (calcHash st.r st.maxDesc shuffle (ext img)) ignore
            (upsert st.table imageId (calcHash st.r st.maxDesc shuffle (ext img))))
          nc = []
      · rw [if_pos h3] at h
        exact absurd h (by simp)
      · rw [if_neg h3] at h
        have hc : getBestCandidates
            (calcSimilarities (calcHash st.r st.maxDesc shuffle (ext img)) ignore
              (upsert st.table imageId (calcHash st.r st.maxDesc shuffle (ext img))))
            nc = cands := by simpa using h
        exact ⟨hc.symm, h1, h2, hc ▸ h3⟩

theorem eligibleSims_keys_nodup (ext : Image → Mat) (shuffle : List ℕ)
    (st : HalocState) (imageId : ℕ) (img : Image) (ignore : List ℕ)
    (hs : SortedKeys st.table) :
    ((eligibleSims ext shuffle st imageId img ignore).map Prod.fst).Nodup := by
  rw [eligibleSims]
  exact (sortedKeys_keys_nodup _
      (upsert_sortedKeys st.table imageId (calcHash st.r st.maxDesc shuffle (ext img)) hs)).sublist
    (calcSimilarities_keys_sublist _ _ _)

/-! ### The claims -/

/-- Claim C1. The claim states that `calcHash` writes the scalar computed for
projection index `i` and descriptor column `n` at row-major position
`i * D + n`, distinct slots for distinct pairs. The code instead writes at
index `i * n` (hash.cc line 61): on the basis `[[1,0],[0,1]]` (two
projections) and the single-row descriptor matrix `[[1,1]]` (`D = 2`), every
pair except `(1,1)` collides on slot 0, the scalar `1/2` computed for the
pair `(1,0)` never reaches its row-major slot `1*2+0 = 2` (which keeps its
initial value 0), and slot 0 ends up holding the scalar of the last writer
`(1,0)` rather than the one of `(0,0)` (which is 1). This theorem exhibits
the divergence of the code from the stated (and spec-intended) indexing. -/
theorem calcHash_index_collision :
    calcHash [[1, 0], [0, 1]] 2 [] ⟨[[1, 1]], 2⟩ = [1/2, 1/2, 0, 0]
    ∧ projScalar [[1, 0], [0, 1]] 2 (adjustDesc 2 [] ⟨[[1, 1]], 2⟩)
        ((adjustDesc 2 [] ⟨[[1, 1]], 2⟩).rows : ℚ) 1 0 = 1/2
    ∧ (calcHash [[1, 0], [0, 1]] 2 [] ⟨[[1, 1]], 2⟩).getD (1 * 2 + 0) 0 = 0
    ∧ projScalar [[1, 0], [0, 1]] 2 (adjustDesc 2 [] ⟨[[1, 1]], 2⟩)
        ((adjustDesc 2 [] ⟨[[1, 1]], 2⟩).rows : ℚ) 0 0 = 1
    ∧ (calcHash [[1, 0], [0, 1]] 2 [] ⟨[[1, 1]], 2⟩).getD (0 * 2 + 0) 0 = 1/2 := by
  refine ⟨?_, ?_, ?_, ?_, ?_⟩ <;>
    norm_num [calcHash, hashWrites, projScalar, adjustDesc, Mat.rows, Mat.entry,
      List.range_succ, List.replicate, List.set]

/-- Claim C2. For a descriptor matrix with at least one row, the hash
returned by `calcHash` has length `num_proj * D`, where `num_proj` is the
basis size and `D` the column count of the descriptor matrix. -/
theorem calcHash_length (numProj : ℕ) (r : List (List ℚ)) (maxDesc : ℕ)
    (shuffle : List ℕ) (desc : Mat) (hP : r.length = numProj)
    (h : desc.rows ≠ 0) :
    (calcHash r maxDesc shuffle desc).length = numProj * desc.cols := by
  rw [calcHash, if_neg h, length_hashWrites, adjustDesc_cols, hP]

/-- Witness for C2 at the two-projection basis and a 1 x 2 descriptor
matrix. -/
theorem calcHash_length_witness :
    ([[1, 0], [0, 1]] : List (List ℚ)).length = 2
    ∧ (⟨[[1, 1]], 2⟩ : Mat).rows ≠ 0
    ∧ (calcHash [[1, 0], [0, 1]] 2 [] ⟨[[1, 1]], 2⟩).length = 2 * 2 :=
  ⟨rfl, by decide,
    calcHash_length 2 [[1, 0], [0, 1]] 2 [] ⟨[[1, 1]], 2⟩ rfl (by decide)⟩

/-- Claim C3, counterexample. The claim states that when the descriptor rows
are subsampled down to `max_desc`, the accumulated sum is divided by the
original pre-subsampling row count. With basis `[[1]]` (capacity 1) and the
2-row descriptor matrix `[[1],[3]]`, the subsampled matrix keeps row 0 only;
the code divides by the retained row count 1 and stores 1, while division by
the original row count 2 would store `1/2`. -/
theorem calcHash_divisor_counterexample :
    (calcHash [[1]] 1 [0, 1] ⟨[[1], [3]], 1⟩).getD 0 0 = 1
    ∧ projScalar [[1]] 1 (adjustDesc 1 [0, 1] ⟨[[1], [3]], 1⟩)
        (((⟨[[1], [3]], 1⟩ : Mat).rows : ℚ)) 0 0 = 1/2
    ∧ (1 : ℚ) ≠ 1/2 := by
  refine ⟨?_, ?_, by norm_num⟩ <;>
    norm_num [calcHash, hashWrites, projScalar, adjustDesc, Mat.rows, Mat.entry,
      List.range_succ, List.replicate, List.set]

/-- Claim C3, amended: in the subsampling case (row count exceeding the
capacity `r_[0].size()`, with enough shuffled indices), each accumulated sum
is divided by the retained row count - the capacity - rather than by the
original row count: the divisor `descLength` passed to every scalar is the
capacity itself. -/
theorem calcHash_divisor_subsampled (r : List (List ℚ)) (maxDesc : ℕ)
    (shuffle : List ℕ) (desc : Mat)
    (hcap : (r.getD 0 []).length < desc.rows)
    (hsh : (r.getD 0 []).length ≤ shuffle.length) :
    calcHash r maxDesc shuffle desc
      = hashWrites r.length desc.cols
          (projScalar r maxDesc (adjustDesc (r.getD 0 []).length shuffle desc)
            (((r.getD 0 []).length : ℚ))) := by
  rw [calcHash, if_neg (by omega), adjustDesc_cols,
    adjustDesc_rows_of_lt _ _ _ hcap hsh]

/-- Witness for the amended C3 at a concrete subsampled input. -/
theorem calcHash_divisor_subsampled_witness :
    (([[1]] : List (List ℚ)).getD 0 []).length < (⟨[[1], [3]], 1⟩ : Mat).rows
    ∧ (([[1]] : List (List ℚ)).getD 0 []).length ≤ ([0, 1] : List ℕ).length
    ∧ calcHash [[1]] 1 [0, 1] ⟨[[1], [3]], 1⟩
        = hashWrites ([[1]] : List (List ℚ)).length (⟨[[1], [3]], 1⟩ : Mat).cols
            (projScalar [[1]] 1 (adjustDesc (([[1]] : List (List ℚ)).getD 0 []).length [0, 1] ⟨[[1], [3]], 1⟩)
              ((((([[1]] : List (List ℚ)).getD 0 []).length : ℕ)) : ℚ))
    ∧ calcHash [[1]] 1 [0, 1] ⟨[[1], [3]], 1⟩ = [1] :=
  ⟨by decide, by decide,
    calcHash_divisor_subsampled [[1]] 1 [0, 1] ⟨[[1], [3]], 1⟩ (by decide) (by decide),
    by norm_num [calcHash, hashWrites, projScalar, adjustDesc, Mat.rows,
      Mat.entry, List.range_succ, List.replicate, List.set]⟩

/-- Claim C4. `calcSimilarity` returns a negative value exactly when the two
hashes differ in length (the sentinel `-1`); on equal lengths it returns the
Euclidean distance - the square root of the sum of squared per-position
differences - which is non-negative. -/
theorem calcSimilarity_spec (a b : List ℚ) :
    (calcSimilarity a b < 0 ↔ a.length ≠ b.length)
    ∧ (a.length ≠ b.length → calcSimilarity a b = -1)
    ∧ (a.length = b.length →
        calcSimilarity a b
            = Real.sqrt (((∑ i ∈ Finset.range a.length,
                (a.getD i 0 - b.getD i 0) ^ 2 : ℚ) : ℝ))
        ∧ 0 ≤ calcSimilarity a b) := by
  by_cases hl : a.length = b.length
  · rw [calcSimilarity, if_neg (by simp [hl])]
    refine ⟨?_, fun hne => absurd hl hne, fun _ => ⟨?_, Real.sqrt_nonneg _⟩⟩
    · simp [hl, not_lt.mpr (Real.sqrt_nonneg _)]
    · rw [sumSqDiff_eq_sum]
  · rw [calcSimilarity, if_pos hl]
    exact ⟨by simp [hl], fun _ => rfl, fun he => absurd he hl⟩

/-- Witness for C4: the sentinel on a length mismatch and non-negativity on
matching lengths, at concrete hashes. -/
theorem calcSimilarity_spec_witness :
    calcSimilarity [0, 1] [3] < 0 ∧ calcSimilarity [0, 1] [3] = -1
    ∧ 0 ≤ calcSimilarity [1] [0] :=
  ⟨(calcSimilarity_spec [0, 1] [3]).1.mpr (by decide),
    (calcSimilarity_spec [0, 1] [3]).2.1 (by decide),
    ((calcSimilarity_spec [1] [0]).2.2 rfl).2⟩

/-- Claim C5, counterexample. The claim states that every present candidate
list has length `min num_candidates #eligible`. `num_candidates` is a C++
`int` compared against `candidates.size()` (a `size_t`), so a negative value
converts to a huge unsigned number: with `num_candidates = -1` and the two
eligible ids 1 and 3 of the concrete run, `process` returns the full list
`[1, 3]` of length 2, while `min (-1) 2 = -1`. -/
theorem process_length_counterexample :
    (process ext0 [] st0 4 img0 (-1) []).1 = some [1, 3]
    ∧ (eligibleSims ext0 [] st0 4 img0 []).length = 2
    ∧ (([1, 3] : List ℕ).length : ℤ) ≠ min (-1 : ℤ) 2 := by
  refine ⟨by rw [runNeg], by rw [sims0E]; rfl, by norm_num⟩

/-- Claim C5, amended: every present candidate list is sorted by
non-decreasing similarity to the new hash (looked up in the eligible
similarity map), and its length is the minimum of the number of eligible ids
and `num_candidates` converted to the unsigned size type used by the loop
comparison - which is `num_candidates` itself whenever it is non-negative. -/
theorem process_sorted_length (ext : Image → Mat) (shuffle : List ℕ)
    (st : HalocState) (imageId : ℕ) (img : Image) (nc : ℤ) (ignore : List ℕ)
    (cands : List ℕ) (hsorted : SortedKeys st.table)
    (h : (process ext shuffle st imageId img nc ignore).1 = some cands) :
    cands.Pairwise (fun a b =>
        lookupD a (eligibleSims ext shuffle st imageId img ignore) 0
          ≤ lookupD b (eligibleSims ext shuffle st imageId img ignore) 0)
    ∧ cands.length
        = min (sizeTNat nc) (eligibleSims ext shuffle st imageId img ignore).length := by
  obtain ⟨hc, -, -, -⟩ := process_some_eq ext shuffle st imageId img nc ignore cands h
  have hnd := eligibleSims_keys_nodup ext shuffle st imageId img ignore hsorted
  obtain ⟨hl, -, hp⟩ := gbcAux_spec (eligibleSims ext shuffle st imageId img ignore).length
    (eligibleSims ext shuffle st imageId img ignore) (sizeTNat nc) hnd le_rfl
  rw [getBestCandidates] at hc
  subst hc
  exact ⟨hp, hl⟩

/-- Witness for the amended C5 at the concrete run with
`num_candidates = 1`. -/
theorem process_sorted_length_witness :
    SortedKeys st0.table
    ∧ (process ext0 [] st0 4 img0 1 []).1 = some [1]
    ∧ ([1] : List ℕ).Pairwise (fun a b =>
        lookupD a (eligibleSims ext0 [] st0 4 img0 []) 0
          ≤ lookupD b (eligibleSims ext0 [] st0 4 img0 []) 0)
    ∧ ([1] : List ℕ).length
        = min (sizeTNat 1) (eligibleSims ext0 [] st0 4 img0 []).length := by
  have hs : SortedKeys st0.table := by
    rw [SortedKeys, st0]
    decide
  have hr : (process ext0 [] st0 4 img0 1 []).1 = some [1] := by rw [run1]
  obtain ⟨hp, hl⟩ := process_sorted_length ext0 [] st0 4 img0 1 [] [1] hs hr
  exact ⟨hs, hr, hp, hl⟩

/-- Claim C6. Processing an empty image returns the absent result and leaves
the whole state - in particular the fingerprint store - unchanged. -/
theorem process_empty_image (ext : Image → Mat) (shuffle : List ℕ)
    (st : HalocState) (imageId : ℕ) (img : Image) (nc : ℤ) (ignore : List ℕ)
    (h : img = []) :
    process ext shuffle st imageId img nc ignore = (none, st) := by
  rw [process, if_pos h]

/-- Witness for C6 at the concrete store and an empty image. -/
theorem process_empty_image_witness :
    (([] : Image) = []) ∧ process ext0 [] st0 7 [] 1 [] = (none, st0) :=
  ⟨rfl, process_empty_image ext0 [] st0 7 [] 1 [] rfl⟩

/-- Claim C7, counterexample. The store holds hashes for ids 1, 2, 3, and the
new image (id 4) has exactly the descriptor matrix whose hash is the one
stored for id 2 (both hash to `[1]`). The claim states the result is `[2]`;
the code instead discards id 2, whose similarity with the new hash is 0 and
is caught by the `similarity <= 0` filter, and returns `[1]`. -/
theorem process_duplicate_counterexample :
    st0.table = [(1, [0]), (2, [1]), (3, [5])]
    ∧ calcHash st0.r st0.maxDesc [] (ext0 img0) = [1]
    ∧ (process ext0 [] st0 4 img0 1 []).1 ≠ some [2] := by
  refine ⟨rfl, hash0, ?_⟩
  rw [run1]
  simp

/-- Claim C7, amended: in the stated scenario the exact-duplicate id 2 is
excluded (its zero distance is filtered out as `<= 0`) and the returned
single candidate is the nearest of the remaining ids, here id 1. -/
theorem process_duplicate_excluded :
    (process ext0 [] st0 4 img0 1 []).1 = some [1] ∧ (2 : ℕ) ∉ ([1] : List ℕ) := by
  refine ⟨by rw [run1], by simp⟩

/-- Claim C8. When two `process` calls with the same image id both reach the
storage step (non-empty image, non-empty hash), the second call overwrites
the stored entry rather than appending: the store size after the second call
equals the size after the first. -/
theorem process_overwrite_length (ext1 ext2 : Image → Mat)
    (sh1 sh2 : List ℕ) (st : HalocState) (imageId : ℕ) (img1 img2 : Image)
    (nc1 nc2 : ℤ) (ign1 ign2 : List ℕ)
    (h1 : img1 ≠ []) (h2 : img2 ≠ [])
    (hh1 : calcHash st.r st.maxDesc sh1 (ext1 img1) ≠ [])
    (hh2 : calcHash st.r st.maxDesc sh2 (ext2 img2) ≠ []) :
    ((process ext2 sh2 (process ext1 sh1 st imageId img1 nc1 ign1).2 imageId
        img2 nc2 ign2).2).table.length
      = ((process ext1 sh1 st imageId img1 nc1 ign1).2).table.length := by
  have e1 : (process ext1 sh1 st imageId img1 nc1 ign1).2
      = ⟨st.r, st.maxDesc,
          upsert st.table imageId (calcHash st.r st.maxDesc sh1 (ext1 img1))⟩ := by
    rw [process, if_neg h1, processWithHash_snd _ _ _ _ _ hh1]
  rw [e1, process, if_neg h2, processWithHash_snd _ _ _ _ _ (by simpa using hh2)]
  exact upsert_upsert_length st.table imageId _ _

/-- Witness for C8: processing the same id twice at the concrete run keeps
the store size at 4. -/
theorem process_overwrite_length_witness :
    (img0 ≠ []) ∧ calcHash st0.r st0.maxDesc [] (ext0 img0) ≠ []
    ∧ ((process ext0 [] (process ext0 [] st0 4 img0 1 []).2 4 img0 1 []).2).table.length
        = ((process ext0 [] st0 4 img0 1 []).2).table.length :=
  ⟨by simp [img0], by rw [hash0]; simp,
    process_overwrite_length ext0 ext0 [] [] st0 4 img0 img0 1 1 [] []
      (by simp [img0]) (by simp [img0])
      (by rw [hash0]; simp) (by rw [hash0]; simp)⟩

/-- Claim C9. A present candidate list is never empty: `process` returns the
absent result when the greedy selection yields no candidate. -/
theorem process_no_empty_list (ext : Image → Mat) (shuffle : List ℕ)
    (st : HalocState) (imageId : ℕ) (img : Image) (nc : ℤ) (ignore : List ℕ)
    (cands : List ℕ)
    (h : (process ext shuffle st imageId img nc ignore).1 = some cands) :
    cands ≠ [] :=
  (process_some_eq ext shuffle st imageId img nc ignore cands h).2.2.2

/-- Witness for C9 at the concrete run. -/
theorem process_no_empty_list_witness :
    (process ext0 [] st0 4 img0 1 []).1 = some [1] ∧ ([1] : List ℕ) ≠ [] :=
  ⟨by rw [run1],
    process_no_empty_list ext0 [] st0 4 img0 1 [] [1] (by rw [run1])⟩

/-- Claim C10. The candidate list never contains the processed image id
itself, although the new hash is stored before similarities are computed and
the similarity loop ranges over the whole table: the self-comparison has
distance 0 and is removed by the `similarity <= 0` filter. -/
theorem process_excludes_self (ext : Image → Mat) (shuffle : List ℕ)
    (st : HalocState) (imageId : ℕ) (img : Image) (nc : ℤ) (ignore : List ℕ)
    (cands : List ℕ) (hsorted : SortedKeys st.table)
    (h : (process ext shuffle st imageId img nc ignore).1 = some cands) :
    imageId ∉ cands := by
  obtain ⟨hc, -, -, -⟩ := process_some_eq ext shuffle st imageId img nc ignore cands h
  have hnd := eligibleSims_keys_nodup ext shuffle st imageId img ignore hsorted
  obtain ⟨-, hmemk, -⟩ := gbcAux_spec (eligibleSims ext shuffle st imageId img ignore).length
    (eligibleSims ext shuffle st imageId img ignore) (sizeTNat nc) hnd le_rfl
  rw [getBestCandidates] at hc
  subst hc
  intro hmem
  have hid := hmemk imageId hmem
  rw [eligibleSims] at hid
  obtain ⟨q, hq, hqk⟩ := List.exists_of_mem_map hid
  obtain ⟨w, hw, -, hpos, -⟩ := mem_calcSimilarities _ _ _ q hq
  rw [hqk] at hw
  have hwh : w = calcHash st.r st.maxDesc shuffle (ext img) :=
    mem_upsert_self_eq st.table imageId _ w hsorted hw
  rw [hwh] at hpos
  exact hpos (calcSimilarity_self _).le

/-- Witness for C10 at the concrete run: id 4 is absent from the returned
list. -/
theorem process_excludes_self_witness :
    SortedKeys st0.table
    ∧ (process ext0 [] st0 4 img0 1 []).1 = some [1]
    ∧ (4 : ℕ) ∉ ([1] : List ℕ) := by
  have hs : SortedKeys st0.table := by
    rw [SortedKeys, st0]
    decide
  exact ⟨hs, by rw [run1],
    process_excludes_self ext0 [] st0 4 img0 1 [] [1] hs (by rw [run1])⟩

end Haloc
